import Mathlib

/-!
Shallow embedding of `src/tree.h` (namespace `bintree`, template `TNode<T>`).

A `TNode<T>` object lives behind `std::shared_ptr`; we model the set of all
nodes ever allocated as a heap `Heap T := List (Node T)`, a node handle
(`TNodePtr`) as an index into that heap (`Option Nat`, with `none` for the
null pointer), and each operation of the source as a function on heaps.
In the basic model nothing is ever deallocated (callers are assumed to keep
their handles), so an index is live exactly when it is below the heap length;
a second, reference-counted model for the deallocation behaviour of
`shared_ptr`/`weak_ptr` appears further down (namespace `RC`).

The `parent` member is a `std::weak_ptr`; we store it as the raw optional
index (`Option Nat`), and `getParent` models `parent.lock()` by checking
that the stored index is still live.
-/

namespace bintree

/-- The data members of `TNode<T>` (src/tree.h lines 112-123): `value : T`,
`left`/`right : TNodePtr` (strong links, `none` = `nullptr`), and
`parent : std::weak_ptr` stored as a raw optional index. -/
structure Node (T : Type) where
  value : T
  left : Option Nat
  right : Option Nat
  parent : Option Nat
deriving Repr, DecidableEq

/-- The heap of all allocated nodes; a node's id is its index. -/
abbrev Heap (T : Type) := List (Node T)

variable {T : Type}

/-- A possibly-null handle is valid when it is null or points to a live node
(in C++ a non-null `TNodePtr` always points to a live object). -/
def optLive (h : Heap T) (x : Option Nat) : Bool :=
  match x with
  | none => true
  | some a => a < h.length

/-- `getValue` (src/tree.h lines 26-32), partialised over the heap. -/
def getValue (h : Heap T) (i : Nat) : Option T :=
  (h[i]?).map Node.value

/-- `getLeft` (src/tree.h lines 34-40): the strong left link. -/
def getLeft (h : Heap T) (i : Nat) : Option Nat :=
  match h[i]? with
  | none => none
  | some nd => nd.left

/-- `getRight` (src/tree.h lines 42-48): the strong right link. -/
def getRight (h : Heap T) (i : Nat) : Option Nat :=
  match h[i]? with
  | none => none
  | some nd => nd.right

/-- The raw `parent` member (the stored `std::weak_ptr` target, before
`lock()`). -/
def parentOf (h : Heap T) (i : Nat) : Option Nat :=
  match h[i]? with
  | none => none
  | some nd => nd.parent

/-- `getParent` (src/tree.h lines 50-60): `parent.lock()` — resolves the
weak back-reference, yielding `none` when it is empty or its target is no
longer live. -/
def getParent (h : Heap T) (i : Nat) : Option Nat :=
  match h[i]? with
  | none => none
  | some nd =>
    match nd.parent with
    | none => none
    | some p => if (h[p]?).isSome then some p else none

/-- `hasLeft` (src/tree.h lines 14-16): `bool(left)`. -/
def hasLeft (h : Heap T) (i : Nat) : Bool :=
  (getLeft h i).isSome

/-- `hasRight` (src/tree.h lines 18-20): `bool(right)`. -/
def hasRight (h : Heap T) (i : Nat) : Bool :=
  (getRight h i).isSome

/-- `hasParent` (src/tree.h lines 22-24). The source text is
`return bool(parent);` with `parent : std::weak_ptr`, which is ill-formed
C++ (`std::weak_ptr` has no boolean conversion), so every instantiation of
`hasParent` fails to compile. This definition models the evident intent
stated by the surrounding design — true iff the back-reference currently
resolves to a live node, i.e. `bool(parent.lock())`. -/
def hasParent (h : Heap T) (i : Nat) : Bool :=
  (getParent h i).isSome

/-- `setParent` (src/tree.h lines 148-151): `if (node) node->parent = parent;`.
Writes the raw weak back-reference of `node` (when non-null) to `parent`. -/
def setParent (h : Heap T) (node : Option Nat) (parent : Option Nat) : Heap T :=
  match node with
  | none => h
  | some i =>
    match h[i]? with
    | none => h
    | some nd => h.set i { nd with parent := parent }

/-- Write the `left` member of node `i` (the effect of `std::swap(l, left)`
on the member). -/
def updLeft (h : Heap T) (i : Nat) (l : Option Nat) : Heap T :=
  match h[i]? with
  | none => h
  | some nd => h.set i { nd with left := l }

/-- Write the `right` member of node `i`. -/
def updRight (h : Heap T) (i : Nat) (r : Option Nat) : Heap T :=
  match h[i]? with
  | none => h
  | some nd => h.set i { nd with right := r }

/-- `createLeaf` (src/tree.h lines 62-66): allocate a fresh node holding `v`
with no children and an empty back-reference, returning its id. (The
allocation goes through the private helper subclass `TSuccessorNode`, whose
constructor merely forwards to `TNode(v)`; it has no observable effect.) -/
def createLeaf (h : Heap T) (v : T) : Heap T × Nat :=
  (List.append h [{ value := v, left := none, right := none, parent := none }], h.length)

/-- `fork` (src/tree.h lines 68-75): allocate a node holding `v` with
children `l`/`r` (through `TSuccessorNode(v, left, right)`), then
`setParent(ptr->getLeft(), ptr); setParent(ptr->getRight(), ptr);`. -/
def fork (h : Heap T) (v : T) (l r : Option Nat) : Heap T × Nat :=
  let ptr := h.length
  let h1 := List.append h [{ value := v, left := l, right := r, parent := none }]
  let h2 := setParent h1 (getLeft h1 ptr) (some ptr)
  let h3 := setParent h2 (getRight h2 ptr) (some ptr)
  (h3, ptr)

/-- `replaceLeft` (src/tree.h lines 77-85), on node `self` with argument `l`:
`setParent(l, shared_from_this()); setParent(left, nullptr);
std::swap(l, left); return l;` — in heap terms: set the back-reference of
`l`, then clear the back-reference of the current left child, then install
`l` in the left slot, returning the previously-held left child. -/
def replaceLeft (h : Heap T) (self : Nat) (l : Option Nat) : Heap T × Option Nat :=
  let h1 := setParent h l (some self)
  let h2 := setParent h1 (getLeft h1 self) none
  (updLeft h2 self l, getLeft h2 self)

/-- `replaceRight` (src/tree.h lines 87-95): mirror of `replaceLeft`. -/
def replaceRight (h : Heap T) (self : Nat) (r : Option Nat) : Heap T × Option Nat :=
  let h1 := setParent h r (some self)
  let h2 := setParent h1 (getRight h1 self) none
  (updRight h2 self r, getRight h2 self)

/-- `replaceRightWithLeaf` (src/tree.h lines 97-99):
`return replaceRight(createLeaf(v));`. -/
def replaceRightWithLeaf (h : Heap T) (self : Nat) (v : T) : Heap T × Option Nat :=
  let p := createLeaf h v
  replaceRight p.1 self (some p.2)

/-- `replaceLeftWithLeaf` (src/tree.h lines 101-103):
`return replaceLeft(createLeaf(v));`. -/
def replaceLeftWithLeaf (h : Heap T) (self : Nat) (v : T) : Heap T × Option Nat :=
  let p := createLeaf h v
  replaceLeft p.1 self (some p.2)

/-- `removeLeft` (src/tree.h lines 105-107): `return replaceLeft(nullptr);`. -/
def removeLeft (h : Heap T) (self : Nat) : Heap T × Option Nat :=
  replaceLeft h self none

/-- `removeRight` (src/tree.h lines 108-110): `return replaceRight(nullptr);`. -/
def removeRight (h : Heap T) (self : Nat) : Heap T × Option Nat :=
  replaceRight h self none


/-! ### Basic heap lemmas -/

theorem isSome_at (h : Heap T) (i : Nat) : (h[i]?).isSome = true ↔ i < h.length := by
  rw [Option.isSome_iff_ne_none]
  simp only [ne_eq, List.getElem?_eq_none_iff]
  omega

theorem at_of_ge (h : Heap T) (i : Nat) (hi : h.length ≤ i) : h[i]? = none :=
  List.getElem?_eq_none hi

theorem at_append_ne (h : Heap T) (nd : Node T) (j : Nat) (hj : j ≠ h.length) :
    (List.append h [nd])[j]? = h[j]? := by
  rcases Nat.lt_or_ge j h.length with hlt | hge
  · rw [List.append_eq, List.getElem?_append_left hlt]
  · have h1 : h.length + 1 ≤ j := by omega
    rw [at_of_ge h j hge, List.append_eq, List.getElem?_eq_none]
    simpa using h1

theorem at_append_self (h : Heap T) (nd : Node T) :
    (List.append h [nd])[h.length]? = some nd := by
  rw [List.append_eq]
  exact List.getElem?_concat_length h nd

/-! ### `setParent` characterization: it changes only the `parent` member of
its (live, non-null) target node. -/

theorem setParent_none (h : Heap T) (p : Option Nat) : setParent h none p = h := rfl

theorem len_setParent (h : Heap T) (x p : Option Nat) :
    (setParent h x p).length = h.length := by
  unfold setParent
  match x with
  | none => rfl
  | some a =>
    match hA : h[a]? with
    | none => simp [hA]
    | some nd => simp [hA]

theorem at_setParent_self (h : Heap T) (a : Nat) (p : Option Nat) :
    (setParent h (some a) p)[a]? = (h[a]?).map (fun nd => { nd with parent := p }) := by
  unfold setParent
  match hA : h[a]? with
  | none => simp [hA]
  | some nd =>
    have ha : a < h.length := (isSome_at h a).mp (by simp [hA])
    simp only [hA, Option.map_some]
    exact List.getElem?_set_self ha

theorem at_setParent_ne (h : Heap T) (x p : Option Nat) (j : Nat) (hx : x ≠ some j) :
    (setParent h x p)[j]? = h[j]? := by
  unfold setParent
  match x with
  | none => rfl
  | some a =>
    have haj : a ≠ j := by
      intro he
      exact hx (by rw [he])
    match hA : h[a]? with
    | none => simp [hA]
    | some nd =>
      simp only [hA]
      exact List.getElem?_set_ne haj

theorem getLeft_setParent (h : Heap T) (x p : Option Nat) (j : Nat) :
    getLeft (setParent h x p) j = getLeft h j := by
  by_cases hx : x = some j
  · subst hx
    simp only [getLeft, at_setParent_self]
    cases h[j]? <;> rfl
  · simp only [getLeft, at_setParent_ne h x p j hx]

theorem getRight_setParent (h : Heap T) (x p : Option Nat) (j : Nat) :
    getRight (setParent h x p) j = getRight h j := by
  by_cases hx : x = some j
  · subst hx
    simp only [getRight, at_setParent_self]
    cases h[j]? <;> rfl
  · simp only [getRight, at_setParent_ne h x p j hx]

theorem getValue_setParent (h : Heap T) (x p : Option Nat) (j : Nat) :
    getValue (setParent h x p) j = getValue h j := by
  by_cases hx : x = some j
  · subst hx
    simp only [getValue, at_setParent_self]
    cases h[j]? <;> rfl
  · simp only [getValue, at_setParent_ne h x p j hx]

theorem parentOf_setParent_self (h : Heap T) (a : Nat) (p : Option Nat) (ha : a < h.length) :
    parentOf (setParent h (some a) p) a = p := by
  simp only [parentOf, at_setParent_self]
  match hA : h[a]? with
  | none => exact absurd ((isSome_at h a).mpr ha) (by simp [hA])
  | some nd => rfl

theorem parentOf_setParent_ne (h : Heap T) (x p : Option Nat) (j : Nat) (hx : x ≠ some j) :
    parentOf (setParent h x p) j = parentOf h j := by
  simp only [parentOf, at_setParent_ne h x p j hx]

/-! ### `updLeft` / `updRight` characterization -/

theorem len_updLeft (h : Heap T) (i : Nat) (l : Option Nat) :
    (updLeft h i l).length = h.length := by
  unfold updLeft
  match hA : h[i]? with
  | none => simp [hA]
  | some nd => simp [hA]

theorem at_updLeft_self (h : Heap T) (i : Nat) (l : Option Nat) :
    (updLeft h i l)[i]? = (h[i]?).map (fun nd => { nd with left := l }) := by
  unfold updLeft
  match hA : h[i]? with
  | none => simp [hA]
  | some nd =>
    have hi : i < h.length := (isSome_at h i).mp (by simp [hA])
    simp only [hA, Option.map_some]
    exact List.getElem?_set_self hi

theorem at_updLeft_ne (h : Heap T) (i : Nat) (l : Option Nat) (j : Nat) (hij : i ≠ j) :
    (updLeft h i l)[j]? = h[j]? := by
  unfold updLeft
  match hA : h[i]? with
  | none => simp [hA]
  | some nd =>
    simp only [hA]
    exact List.getElem?_set_ne hij

theorem getLeft_updLeft_self (h : Heap T) (i : Nat) (l : Option Nat) (hi : i < h.length) :
    getLeft (updLeft h i l) i = l := by
  simp only [getLeft, at_updLeft_self]
  match hA : h[i]? with
  | none => exact absurd ((isSome_at h i).mpr hi) (by simp [hA])
  | some nd => rfl

theorem getLeft_updLeft_ne (h : Heap T) (i : Nat) (l : Option Nat) (j : Nat) (hij : i ≠ j) :
    getLeft (updLeft h i l) j = getLeft h j := by
  simp only [getLeft, at_updLeft_ne h i l j hij]

theorem getRight_updLeft (h : Heap T) (i : Nat) (l : Option Nat) (j : Nat) :
    getRight (updLeft h i l) j = getRight h j := by
  by_cases hij : i = j
  · subst hij
    simp only [getRight, at_updLeft_self]
    cases h[i]? <;> rfl
  · simp only [getRight, at_updLeft_ne h i l j hij]

theorem parentOf_updLeft (h : Heap T) (i : Nat) (l : Option Nat) (j : Nat) :
    parentOf (updLeft h i l) j = parentOf h j := by
  by_cases hij : i = j
  · subst hij
    simp only [parentOf, at_updLeft_self]
    cases h[i]? <;> rfl
  · simp only [parentOf, at_updLeft_ne h i l j hij]

theorem getValue_updLeft (h : Heap T) (i : Nat) (l : Option Nat) (j : Nat) :
    getValue (updLeft h i l) j = getValue h j := by
  by_cases hij : i = j
  · subst hij
    simp only [getValue, at_updLeft_self]
    cases h[i]? <;> rfl
  · simp only [getValue, at_updLeft_ne h i l j hij]

theorem len_updRight (h : Heap T) (i : Nat) (r : Option Nat) :
    (updRight h i r).length = h.length := by
  unfold updRight
  match hA : h[i]? with
  | none => simp [hA]
  | some nd => simp [hA]

theorem at_updRight_self (h : Heap T) (i : Nat) (r : Option Nat) :
    (updRight h i r)[i]? = (h[i]?).map (fun nd => { nd with right := r }) := by
  unfold updRight
  match hA : h[i]? with
  | none => simp [hA]
  | some nd =>
    have hi : i < h.length := (isSome_at h i).mp (by simp [hA])
    simp only [hA, Option.map_some]
    exact List.getElem?_set_self hi

theorem at_updRight_ne (h : Heap T) (i : Nat) (r : Option Nat) (j : Nat) (hij : i ≠ j) :
    (updRight h i r)[j]? = h[j]? := by
  unfold updRight
  match hA : h[i]? with
  | none => simp [hA]
  | some nd =>
    simp only [hA]
    exact List.getElem?_set_ne hij

theorem getRight_updRight_self (h : Heap T) (i : Nat) (r : Option Nat) (hi : i < h.length) :
    getRight (updRight h i r) i = r := by
  simp only [getRight, at_updRight_self]
  match hA : h[i]? with
  | none => exact absurd ((isSome_at h i).mpr hi) (by simp [hA])
  | some nd => rfl

theorem getRight_updRight_ne (h : Heap T) (i : Nat) (r : Option Nat) (j : Nat) (hij : i ≠ j) :
    getRight (updRight h i r) j = getRight h j := by
  simp only [getRight, at_updRight_ne h i r j hij]

theorem getLeft_updRight (h : Heap T) (i : Nat) (r : Option Nat) (j : Nat) :
    getLeft (updRight h i r) j = getLeft h j := by
  by_cases hij : i = j
  · subst hij
    simp only [getLeft, at_updRight_self]
    cases h[i]? <;> rfl
  · simp only [getLeft, at_updRight_ne h i r j hij]

theorem parentOf_updRight (h : Heap T) (i : Nat) (r : Option Nat) (j : Nat) :
    parentOf (updRight h i r) j = parentOf h j := by
  by_cases hij : i = j
  · subst hij
    simp only [parentOf, at_updRight_self]
    cases h[i]? <;> rfl
  · simp only [parentOf, at_updRight_ne h i r j hij]

theorem getValue_updRight (h : Heap T) (i : Nat) (r : Option Nat) (j : Nat) :
    getValue (updRight h i r) j = getValue h j := by
  by_cases hij : i = j
  · subst hij
    simp only [getValue, at_updRight_self]
    cases h[i]? <;> rfl
  · simp only [getValue, at_updRight_ne h i r j hij]

/-! ### `replaceLeft` / `replaceRight` characterization -/

theorem len_replaceLeft (h : Heap T) (self : Nat) (l : Option Nat) :
    (replaceLeft h self l).1.length = h.length := by
  simp only [replaceLeft, len_updLeft, len_setParent]

theorem replaceLeft_ret (h : Heap T) (self : Nat) (l : Option Nat) :
    (replaceLeft h self l).2 = getLeft h self := by
  simp only [replaceLeft, getLeft_setParent]

theorem getLeft_replaceLeft_self (h : Heap T) (self : Nat) (l : Option Nat)
    (hs : self < h.length) :
    getLeft (replaceLeft h self l).1 self = l := by
  simp only [replaceLeft]
  rw [getLeft_updLeft_self]
  rw [len_setParent, len_setParent]
  exact hs

theorem getLeft_replaceLeft_ne (h : Heap T) (self : Nat) (l : Option Nat) (j : Nat)
    (hj : self ≠ j) :
    getLeft (replaceLeft h self l).1 j = getLeft h j := by
  simp only [replaceLeft]
  rw [getLeft_updLeft_ne _ _ _ _ hj, getLeft_setParent, getLeft_setParent]

theorem getRight_replaceLeft (h : Heap T) (self : Nat) (l : Option Nat) (j : Nat) :
    getRight (replaceLeft h self l).1 j = getRight h j := by
  simp only [replaceLeft]
  rw [getRight_updLeft, getRight_setParent, getRight_setParent]

theorem getValue_replaceLeft (h : Heap T) (self : Nat) (l : Option Nat) (j : Nat) :
    getValue (replaceLeft h self l).1 j = getValue h j := by
  simp only [replaceLeft]
  rw [getValue_updLeft, getValue_setParent, getValue_setParent]

theorem parentOf_replaceLeft_oldchild (h : Heap T) (self : Nat) (l : Option Nat) (j : Nat)
    (hc : getLeft h self = some j) (hj : j < h.length) :
    parentOf (replaceLeft h self l).1 j = none := by
  simp only [replaceLeft]
  rw [parentOf_updLeft, getLeft_setParent, hc]
  rw [parentOf_setParent_self]
  rw [len_setParent]
  exact hj

theorem parentOf_replaceLeft_new (h : Heap T) (self : Nat) (j : Nat)
    (hc : getLeft h self ≠ some j) (hj : j < h.length) :
    parentOf (replaceLeft h self (some j)).1 j = some self := by
  simp only [replaceLeft]
  rw [parentOf_updLeft, getLeft_setParent]
  rw [parentOf_setParent_ne _ _ _ _ hc]
  exact parentOf_setParent_self h j (some self) hj

theorem parentOf_replaceLeft_other (h : Heap T) (self : Nat) (l : Option Nat) (j : Nat)
    (hc : getLeft h self ≠ some j) (hl : l ≠ some j) :
    parentOf (replaceLeft h self l).1 j = parentOf h j := by
  simp only [replaceLeft]
  rw [parentOf_updLeft, getLeft_setParent]
  rw [parentOf_setParent_ne _ _ _ _ hc, parentOf_setParent_ne _ _ _ _ hl]

theorem len_replaceRight (h : Heap T) (self : Nat) (r : Option Nat) :
    (replaceRight h self r).1.length = h.length := by
  simp only [replaceRight, len_updRight, len_setParent]

theorem replaceRight_ret (h : Heap T) (self : Nat) (r : Option Nat) :
    (replaceRight h self r).2 = getRight h self := by
  simp only [replaceRight, getRight_setParent]

theorem getRight_replaceRight_self (h : Heap T) (self : Nat) (r : Option Nat)
    (hs : self < h.length) :
    getRight (replaceRight h self r).1 self = r := by
  simp only [replaceRight]
  rw [getRight_updRight_self]
  rw [len_setParent, len_setParent]
  exact hs

theorem getRight_replaceRight_ne (h : Heap T) (self : Nat) (r : Option Nat) (j : Nat)
    (hj : self ≠ j) :
    getRight (replaceRight h self r).1 j = getRight h j := by
  simp only [replaceRight]
  rw [getRight_updRight_ne _ _ _ _ hj, getRight_setParent, getRight_setParent]

theorem getLeft_replaceRight (h : Heap T) (self : Nat) (r : Option Nat) (j : Nat) :
    getLeft (replaceRight h self r).1 j = getLeft h j := by
  simp only [replaceRight]
  rw [getLeft_updRight, getLeft_setParent, getLeft_setParent]

theorem getValue_replaceRight (h : Heap T) (self : Nat) (r : Option Nat) (j : Nat) :
    getValue (replaceRight h self r).1 j = getValue h j := by
  simp only [replaceRight]
  rw [getValue_updRight, getValue_setParent, getValue_setParent]

theorem parentOf_replaceRight_oldchild (h : Heap T) (self : Nat) (r : Option Nat) (j : Nat)
    (hc : getRight h self = some j) (hj : j < h.length) :
    parentOf (replaceRight h self r).1 j = none := by
  simp only [replaceRight]
  rw [parentOf_updRight, getRight_setParent, hc]
  rw [parentOf_setParent_self]
  rw [len_setParent]
  exact hj

theorem parentOf_replaceRight_new (h : Heap T) (self : Nat) (j : Nat)
    (hc : getRight h self ≠ some j) (hj : j < h.length) :
    parentOf (replaceRight h self (some j)).1 j = some self := by
  simp only [replaceRight]
  rw [parentOf_updRight, getRight_setParent]
  rw [parentOf_setParent_ne _ _ _ _ hc]
  exact parentOf_setParent_self h j (some self) hj

theorem parentOf_replaceRight_other (h : Heap T) (self : Nat) (r : Option Nat) (j : Nat)
    (hc : getRight h self ≠ some j) (hr : r ≠ some j) :
    parentOf (replaceRight h self r).1 j = parentOf h j := by
  simp only [replaceRight]
  rw [parentOf_updRight, getRight_setParent]
  rw [parentOf_setParent_ne _ _ _ _ hc, parentOf_setParent_ne _ _ _ _ hr]

/-! ### `createLeaf` characterization -/

theorem createLeaf_snd (h : Heap T) (v : T) : (createLeaf h v).2 = h.length := rfl

theorem len_createLeaf (h : Heap T) (v : T) :
    (createLeaf h v).1.length = h.length + 1 := by
  simp [createLeaf]

theorem at_createLeaf_self (h : Heap T) (v : T) :
    (createLeaf h v).1[h.length]? =
      some { value := v, left := none, right := none, parent := none } := by
  simp only [createLeaf]
  exact at_append_self h _

theorem at_createLeaf_ne (h : Heap T) (v : T) (j : Nat) (hj : j ≠ h.length) :
    (createLeaf h v).1[j]? = h[j]? := by
  simp only [createLeaf]
  exact at_append_ne h _ j hj

/-! ### `fork` characterization -/

theorem fork_snd (h : Heap T) (v : T) (l r : Option Nat) : (fork h v l r).2 = h.length := rfl

theorem getLeft_fork_alloc (h : Heap T) (v : T) (l r : Option Nat) :
    getLeft (List.append h [{ value := v, left := l, right := r, parent := none }])
      h.length = l := by
  rw [getLeft, at_append_self]

theorem getRight_fork_alloc (h : Heap T) (v : T) (l r : Option Nat) :
    getRight (List.append h [{ value := v, left := l, right := r, parent := none }])
      h.length = r := by
  rw [getRight, at_append_self]

theorem fork_fst_eq (h : Heap T) (v : T) (l r : Option Nat) :
    (fork h v l r).1 =
      setParent
        (setParent (List.append h [{ value := v, left := l, right := r, parent := none }])
          l (some h.length))
        r (some h.length) := by
  simp only [fork]
  rw [getLeft_fork_alloc]
  rw [getRight_setParent, getRight_fork_alloc]

theorem len_fork (h : Heap T) (v : T) (l r : Option Nat) :
    (fork h v l r).1.length = h.length + 1 := by
  rw [fork_fst_eq, len_setParent, len_setParent]
  simp

theorem getLeft_fork_self (h : Heap T) (v : T) (l r : Option Nat) :
    getLeft (fork h v l r).1 h.length = l := by
  rw [fork_fst_eq, getLeft_setParent, getLeft_setParent, getLeft_fork_alloc]

theorem getRight_fork_self (h : Heap T) (v : T) (l r : Option Nat) :
    getRight (fork h v l r).1 h.length = r := by
  rw [fork_fst_eq, getRight_setParent, getRight_setParent, getRight_fork_alloc]

theorem getValue_fork_self (h : Heap T) (v : T) (l r : Option Nat) :
    getValue (fork h v l r).1 h.length = some v := by
  rw [fork_fst_eq, getValue_setParent, getValue_setParent, getValue, at_append_self]
  rfl

theorem parentOf_fork_self (h : Heap T) (v : T) (l r : Option Nat)
    (hl : l ≠ some h.length) (hr : r ≠ some h.length) :
    parentOf (fork h v l r).1 h.length = none := by
  rw [fork_fst_eq, parentOf_setParent_ne _ _ _ _ hr, parentOf_setParent_ne _ _ _ _ hl,
    parentOf, at_append_self]

theorem getLeft_fork_ne (h : Heap T) (v : T) (l r : Option Nat) (j : Nat)
    (hj : j ≠ h.length) :
    getLeft (fork h v l r).1 j = getLeft h j := by
  rw [fork_fst_eq, getLeft_setParent, getLeft_setParent, getLeft, at_append_ne h _ j hj,
    getLeft]

theorem getRight_fork_ne (h : Heap T) (v : T) (l r : Option Nat) (j : Nat)
    (hj : j ≠ h.length) :
    getRight (fork h v l r).1 j = getRight h j := by
  rw [fork_fst_eq, getRight_setParent, getRight_setParent, getRight, at_append_ne h _ j hj,
    getRight]

theorem getValue_fork_ne (h : Heap T) (v : T) (l r : Option Nat) (j : Nat)
    (hj : j ≠ h.length) :
    getValue (fork h v l r).1 j = getValue h j := by
  rw [fork_fst_eq, getValue_setParent, getValue_setParent, getValue, at_append_ne h _ j hj,
    getValue]

theorem parentOf_fork_right (h : Heap T) (v : T) (l : Option Nat) (j : Nat)
    (hj : j < h.length) :
    parentOf (fork h v l (some j)).1 j = some h.length := by
  rw [fork_fst_eq]
  rw [parentOf_setParent_self]
  rw [len_setParent]
  simp only [List.append_eq, List.length_append, List.length_cons, List.length_nil]
  omega

theorem parentOf_fork_left (h : Heap T) (v : T) (r : Option Nat) (j : Nat)
    (hj : j < h.length) (hr : r ≠ some j) :
    parentOf (fork h v (some j) r).1 j = some h.length := by
  rw [fork_fst_eq]
  rw [parentOf_setParent_ne _ _ _ _ hr]
  rw [parentOf_setParent_self]
  simp only [List.append_eq, List.length_append, List.length_cons, List.length_nil]
  omega

theorem parentOf_fork_other (h : Heap T) (v : T) (l r : Option Nat) (j : Nat)
    (hj : j ≠ h.length) (hl : l ≠ some j) (hr : r ≠ some j) :
    parentOf (fork h v l r).1 j = parentOf h j := by
  rw [fork_fst_eq, parentOf_setParent_ne _ _ _ _ hr, parentOf_setParent_ne _ _ _ _ hl,
    parentOf, at_append_ne h _ j hj, parentOf]

/-! ### `createLeaf` field lemmas and liveness helpers -/

theorem getLeft_createLeaf_self (h : Heap T) (v : T) :
    getLeft (createLeaf h v).1 h.length = none := by
  rw [getLeft, at_createLeaf_self]

theorem getRight_createLeaf_self (h : Heap T) (v : T) :
    getRight (createLeaf h v).1 h.length = none := by
  rw [getRight, at_createLeaf_self]

theorem parentOf_createLeaf_self (h : Heap T) (v : T) :
    parentOf (createLeaf h v).1 h.length = none := by
  rw [parentOf, at_createLeaf_self]

theorem getValue_createLeaf_self (h : Heap T) (v : T) :
    getValue (createLeaf h v).1 h.length = some v := by
  rw [getValue, at_createLeaf_self]
  rfl

theorem getLeft_createLeaf_ne (h : Heap T) (v : T) (j : Nat) (hj : j ≠ h.length) :
    getLeft (createLeaf h v).1 j = getLeft h j := by
  rw [getLeft, at_createLeaf_ne h v j hj, getLeft]

theorem getRight_createLeaf_ne (h : Heap T) (v : T) (j : Nat) (hj : j ≠ h.length) :
    getRight (createLeaf h v).1 j = getRight h j := by
  rw [getRight, at_createLeaf_ne h v j hj, getRight]

theorem parentOf_createLeaf_ne (h : Heap T) (v : T) (j : Nat) (hj : j ≠ h.length) :
    parentOf (createLeaf h v).1 j = parentOf h j := by
  rw [parentOf, at_createLeaf_ne h v j hj, parentOf]

theorem getValue_createLeaf_ne (h : Heap T) (v : T) (j : Nat) (hj : j ≠ h.length) :
    getValue (createLeaf h v).1 j = getValue h j := by
  rw [getValue, at_createLeaf_ne h v j hj, getValue]

theorem lt_of_getLeft_eq_some {h : Heap T} {P m : Nat} (hL : getLeft h P = some m) :
    P < h.length := by
  by_contra hge
  have hnone : h[P]? = none := at_of_ge h P (by omega)
  unfold getLeft at hL
  rw [hnone] at hL
  exact absurd hL (by simp)

theorem lt_of_getRight_eq_some {h : Heap T} {P m : Nat} (hR : getRight h P = some m) :
    P < h.length := by
  by_contra hge
  have hnone : h[P]? = none := at_of_ge h P (by omega)
  unfold getRight at hR
  rw [hnone] at hR
  exact absurd hR (by simp)

theorem lt_of_parentOf_eq_some {h : Heap T} {m P : Nat} (hp : parentOf h m = some P) :
    m < h.length := by
  by_contra hge
  have hnone : h[m]? = none := at_of_ge h m (by omega)
  unfold parentOf at hp
  rw [hnone] at hp
  exact absurd hp (by simp)

/-- `getParent` (i.e. `parent.lock()`) yields `some p` exactly when the raw
back-reference stores `p` and `p` is still live. -/
theorem getParent_spec (h : Heap T) (i p : Nat) :
    getParent h i = some p ↔ parentOf h i = some p ∧ p < h.length := by
  match hA : h[i]? with
  | none => simp [getParent, parentOf, hA]
  | some nd =>
    match hP : nd.parent with
    | none => simp [getParent, parentOf, hA, hP]
    | some q =>
      by_cases hq : (h[q]?).isSome = true
      · have hql : q < h.length := (isSome_at h q).mp hq
        simp only [getParent, parentOf, hA, hP, hq, if_true]
        constructor
        · intro he
          have hqp : q = p := Option.some_inj.mp he
          subst hqp
          exact ⟨rfl, hql⟩
        · intro hc
          exact hc.1
      · have hqn : ¬ q < h.length := fun hc => hq ((isSome_at h q).mpr hc)
        simp only [getParent, parentOf, hA, hP, hq, if_false]
        constructor
        · intro he
          exact absurd he (by simp)
        · intro hc
          have hqp : q = p := Option.some_inj.mp hc.1
          subst hqp
          exact absurd hc.2 hqn

theorem getParent_eq_none_of_parentOf_none (h : Heap T) (i : Nat)
    (hp : parentOf h i = none) : getParent h i = none := by
  match hA : h[i]? with
  | none => simp [getParent, hA]
  | some nd =>
    have hP : nd.parent = none := by
      unfold parentOf at hp
      rw [hA] at hp
      exact hp
    simp [getParent, hA, hP]

theorem hasParent_false_iff (h : Heap T) (i : Nat) :
    hasParent h i = false ↔ getParent h i = none := by
  unfold hasParent
  cases hg : getParent h i <;> simp [hg]

theorem hasParent_true_iff (h : Heap T) (i : Nat) :
    hasParent h i = true ↔ ∃ p, getParent h i = some p := by
  unfold hasParent
  cases hg : getParent h i <;> simp [hg]

/-! ### The link-consistency invariant

`linkInvAt h m` says: if node `m` stores a raw back-reference to `P`, then
`P` currently holds a strong left-or-right link to `m`. -/

def linkInvAt (h : Heap T) (m : Nat) : Bool :=
  match parentOf h m with
  | none => true
  | some P => decide (getLeft h P = some m) || decide (getRight h P = some m)

def LinkInv (h : Heap T) : Prop := ∀ m, m < h.length → linkInvAt h m = true

theorem linkInvAt_intro (h : Heap T) (m : Nat)
    (hP : ∀ P, parentOf h m = some P → getLeft h P = some m ∨ getRight h P = some m) :
    linkInvAt h m = true := by
  unfold linkInvAt
  match hp : parentOf h m with
  | none => rfl
  | some P =>
    rcases hP P hp with hL | hR
    · simp [hL]
    · simp [hR]

theorem linkInvAt_elim (h : Heap T) (m P : Nat) (hinv : linkInvAt h m = true)
    (hp : parentOf h m = some P) :
    getLeft h P = some m ∨ getRight h P = some m := by
  unfold linkInvAt at hinv
  rw [hp] at hinv
  simpa using hinv

/-- All states reachable from the empty heap by the public operations of
`TNode<T>` (src/tree.h): `createLeaf`, `fork`, `replaceLeft`, `replaceRight`,
`removeLeft`, `removeRight`, `replaceLeftWithLeaf`, `replaceRightWithLeaf`.
Handles passed as receivers or arguments must be live (in C++ a non-null
`TNodePtr` held by the caller always points to a live node). -/
inductive Reachable {T : Type} : Heap T → Prop where
  | nil : Reachable []
  | step_createLeaf {h : Heap T} (v : T) :
      Reachable h → Reachable (createLeaf h v).1
  | step_fork {h : Heap T} (v : T) (l r : Option Nat) :
      Reachable h → optLive h l = true → optLive h r = true →
      Reachable (fork h v l r).1
  | step_replaceLeft {h : Heap T} (self : Nat) (l : Option Nat) :
      Reachable h → self < h.length → optLive h l = true →
      Reachable (replaceLeft h self l).1
  | step_replaceRight {h : Heap T} (self : Nat) (r : Option Nat) :
      Reachable h → self < h.length → optLive h r = true →
      Reachable (replaceRight h self r).1
  | step_removeLeft {h : Heap T} (self : Nat) :
      Reachable h → self < h.length → Reachable (removeLeft h self).1
  | step_removeRight {h : Heap T} (self : Nat) :
      Reachable h → self < h.length → Reachable (removeRight h self).1
  | step_replaceLeftWithLeaf {h : Heap T} (self : Nat) (v : T) :
      Reachable h → self < h.length → Reachable (replaceLeftWithLeaf h self v).1
  | step_replaceRightWithLeaf {h : Heap T} (self : Nat) (v : T) :
      Reachable h → self < h.length → Reachable (replaceRightWithLeaf h self v).1

theorem optLive_some_iff (h : Heap T) (a : Nat) :
    optLive h (some a) = true ↔ a < h.length := by
  simp [optLive]

theorem linkInv_createLeaf (h : Heap T) (v : T) (hinv : LinkInv h) :
    LinkInv (createLeaf h v).1 := by
  intro m hm
  rw [len_createLeaf] at hm
  apply linkInvAt_intro
  intro P hp
  by_cases hmlen : m = h.length
  · subst hmlen
    rw [parentOf_createLeaf_self] at hp
    exact absurd hp (by simp)
  · rw [parentOf_createLeaf_ne h v m hmlen] at hp
    have hm2 : m < h.length := by
      have := lt_of_parentOf_eq_some hp
      omega
    rcases linkInvAt_elim h m P (hinv m hm2) hp with hL | hR
    · have hPl : P < h.length := lt_of_getLeft_eq_some hL
      left
      rw [getLeft_createLeaf_ne h v P (by omega)]
      exact hL
    · have hPl : P < h.length := lt_of_getRight_eq_some hR
      right
      rw [getRight_createLeaf_ne h v P (by omega)]
      exact hR

theorem linkInv_fork (h : Heap T) (v : T) (l r : Option Nat) (hinv : LinkInv h)
    (hl : optLive h l = true) (hr : optLive h r = true) :
    LinkInv (fork h v l r).1 := by
  intro m hm
  rw [len_fork] at hm
  apply linkInvAt_intro
  intro P hp
  by_cases hrm : r = some m
  · subst hrm
    have hml : m < h.length := (optLive_some_iff h m).mp hr
    rw [parentOf_fork_right h v l m hml] at hp
    have hP : P = h.length := by
      have := Option.some_inj.mp hp
      omega
    subst hP
    right
    rw [getRight_fork_self]
  · by_cases hlm : l = some m
    · subst hlm
      have hml : m < h.length := (optLive_some_iff h m).mp hl
      rw [parentOf_fork_left h v r m hml hrm] at hp
      have hP : P = h.length := by
        have := Option.some_inj.mp hp
        omega
      subst hP
      left
      rw [getLeft_fork_self]
    · by_cases hmlen : m = h.length
      · subst hmlen
        have hlne : l ≠ some h.length := by
          intro he
          have := (optLive_some_iff h h.length).mp (he ▸ hl)
          omega
        have hrne : r ≠ some h.length := by
          intro he
          have := (optLive_some_iff h h.length).mp (he ▸ hr)
          omega
        rw [parentOf_fork_self h v l r hlne hrne] at hp
        exact absurd hp (by simp)
      · rw [parentOf_fork_other h v l r m hmlen hlm hrm] at hp
        have hm2 : m < h.length := by
          have := lt_of_parentOf_eq_some hp
          omega
        rcases linkInvAt_elim h m P (hinv m hm2) hp with hL | hR
        · have hPl : P < h.length := lt_of_getLeft_eq_some hL
          left
          rw [getLeft_fork_ne h v l r P (by omega)]
          exact hL
        · have hPl : P < h.length := lt_of_getRight_eq_some hR
          right
          rw [getRight_fork_ne h v l r P (by omega)]
          exact hR

theorem linkInv_replaceLeft (h : Heap T) (self : Nat) (l : Option Nat)
    (hinv : LinkInv h) (hs : self < h.length) :
    LinkInv (replaceLeft h self l).1 := by
  intro m hm
  rw [len_replaceLeft] at hm
  apply linkInvAt_intro
  intro P hp
  by_cases hold : getLeft h self = some m
  · rw [parentOf_replaceLeft_oldchild h self l m hold hm] at hp
    exact absurd hp (by simp)
  · by_cases hnew : l = some m
    · subst hnew
      rw [parentOf_replaceLeft_new h self m hold hm] at hp
      have hP : P = self := (Option.some_inj.mp hp).symm
      subst hP
      left
      rw [getLeft_replaceLeft_self h P _ hs]
    · rw [parentOf_replaceLeft_other h self l m hold hnew] at hp
      rcases linkInvAt_elim h m P (hinv m hm) hp with hL | hR
      · by_cases hPs : P = self
        · subst hPs
          exact absurd hL hold
        · left
          rw [getLeft_replaceLeft_ne h self l P (fun he => hPs he.symm)]
          exact hL
      · right
        rw [getRight_replaceLeft]
        exact hR

theorem linkInv_replaceRight (h : Heap T) (self : Nat) (r : Option Nat)
    (hinv : LinkInv h) (hs : self < h.length) :
    LinkInv (replaceRight h self r).1 := by
  intro m hm
  rw [len_replaceRight] at hm
  apply linkInvAt_intro
  intro P hp
  by_cases hold : getRight h self = some m
  · rw [parentOf_replaceRight_oldchild h self r m hold hm] at hp
    exact absurd hp (by simp)
  · by_cases hnew : r = some m
    · subst hnew
      rw [parentOf_replaceRight_new h self m hold hm] at hp
      have hP : P = self := (Option.some_inj.mp hp).symm
      subst hP
      right
      rw [getRight_replaceRight_self h P _ hs]
    · rw [parentOf_replaceRight_other h self r m hold hnew] at hp
      rcases linkInvAt_elim h m P (hinv m hm) hp with hL | hR
      · left
        rw [getLeft_replaceRight]
        exact hL
      · by_cases hPs : P = self
        · subst hPs
          exact absurd hR hold
        · right
          rw [getRight_replaceRight_ne h self r P (fun he => hPs he.symm)]
          exact hR

/-- The link-consistency half that really holds: in every reachable state, a
raw back-reference always points to a node that holds the matching strong
link. -/
theorem reachable_linkInv {h : Heap T} (hr : Reachable h) : LinkInv h := by
  induction hr with
  | nil => intro m hm; exact absurd hm (by simp)
  | step_createLeaf v _ ih => exact linkInv_createLeaf _ v ih
  | step_fork v l r _ hl hr2 ih => exact linkInv_fork _ v l r ih hl hr2
  | step_replaceLeft self l _ hs _ ih => exact linkInv_replaceLeft _ self l ih hs
  | step_replaceRight self r _ hs _ ih => exact linkInv_replaceRight _ self r ih hs
  | step_removeLeft self _ hs ih => exact linkInv_replaceLeft _ self none ih hs
  | step_removeRight self _ hs ih => exact linkInv_replaceRight _ self none ih hs
  | step_replaceLeftWithLeaf self v _ hs ih =>
    exact linkInv_replaceLeft _ self _ (linkInv_createLeaf _ v ih)
      (by rw [len_createLeaf]; omega)
  | step_replaceRightWithLeaf self v _ hs ih =>
    exact linkInv_replaceRight _ self _ (linkInv_createLeaf _ v ih)
      (by rw [len_createLeaf]; omega)

/-! ### Concrete states used by counterexamples and witnesses -/

/-- leaf 0 holding 1; node 1 = fork 0 with left child 0; then
`node1.replaceLeft(node0)` — replacing with the node that is already the
current left child. -/
def exC1 : Heap Int :=
  (replaceLeft (fork (createLeaf ([] : Heap Int) 1).1 0 (some 0) none).1 1 (some 0)).1

/-- leaf 0 holding 1; node 1 = fork 0 with left child 0; node 2 = fork 2 with
left child 0 as well — attaching a subtree that is already attached. -/
def exC3 : Heap Int :=
  (fork (fork (createLeaf ([] : Heap Int) 1).1 0 (some 0) none).1 2 (some 0) none).1

/-- the scenario heap: leaves 0 (value 1) and 1 (value 2), node 2 =
`fork 0 leafA leafB`. -/
def exGood : Heap Int :=
  (fork (createLeaf (createLeaf ([] : Heap Int) 1).1 2).1 0 (some 0) (some 1)).1

/-- the scenario heap plus a detached leaf 3 (value 9). -/
def exC5 : Heap Int := (createLeaf exGood 9).1

/-- a single node whose stored back-reference names id 5, which is not a
live node — the state of a `std::weak_ptr` whose target was deallocated. -/
def exDangling : Heap Int :=
  [{ value := 0, left := none, right := none, parent := some 5 }]

/-- Number of strong incoming links of node `c`: how many left or right
child slots of live nodes currently hold `c`. -/
def strongIncoming (h : Heap T) (c : Nat) : Nat :=
  (List.range h.length).countP (fun i => decide (getLeft h i = some c)) +
    (List.range h.length).countP (fun i => decide (getRight h i = some c))

/-! ### The claims -/

/-- C1, counterexample: the claimed biconditional "P holds a strong
left-or-right link to C iff C's back-reference resolves to P" fails on a
reachable state: after `node1.replaceLeft(node0)` where node 0 already was
node 1's left child, node 1 still holds a strong left link to node 0, but
node 0's back-reference resolves to nothing. -/
theorem claim_C1_counterexample :
    Reachable exC1 ∧
      ¬ (∀ P C : Nat, (getLeft exC1 P = some C ∨ getRight exC1 P = some C) ↔
          getParent exC1 C = some P) := by
  constructor
  · exact Reachable.step_replaceLeft 1 (some 0)
      (Reachable.step_fork 0 (some 0) none
        (Reachable.step_createLeaf 1 Reachable.nil) (by decide) (by decide))
      (by decide) (by decide)
  · intro hAll
    have h10 := (hAll 1 0).mp (Or.inl (by decide))
    exact absurd h10 (by decide)

/-- C1, amended: in every reachable state only one direction of the claimed
biconditional holds — whenever a node N's back-reference resolves to a node
P (`N.getParent() == P`), P holds a strong left-or-right link to N
(`P.getLeft() == N` or `P.getRight() == N`); the converse direction is
refuted by the counterexample. -/
theorem claim_C1_amended_linkInv (T : Type) (h : Heap T) (hr : Reachable h) (N P : Nat)
    (hp : getParent h N = some P) :
    getLeft h P = some N ∨ getRight h P = some N := by
  have hraw := (getParent_spec h N P).mp hp
  have hN : N < h.length := lt_of_parentOf_eq_some hraw.1
  exact linkInvAt_elim h N P (reachable_linkInv hr N hN) hraw.1

theorem claim_C1_witness :
    getLeft exGood 2 = some 0 ∨ getRight exGood 2 = some 0 :=
  claim_C1_amended_linkInv Int exGood
    (Reachable.step_fork 0 (some 0) (some 1)
      (Reachable.step_createLeaf 2 (Reachable.step_createLeaf 1 Reachable.nil))
      (by decide) (by decide))
    0 2 (by decide)

/-- C2: `replaceLeft` on a live node `n` with argument `x` returns the
previously-held left child, leaves `n.getLeft() == x`, and its effect on
every live node's raw back-reference is exactly that of performing, in
order: (1) if `x` is present, set `x`'s back-reference to `n`; (2) clear
the back-reference of `n`'s current left child, if any; (3) install `x` in
the left slot — so a node that is both the current left child and the
argument ends with its back-reference cleared, right slots and other left
slots are untouched; `replaceRight` is the mirror image. -/
theorem claim_C2_replace_steps (T : Type) (h : Heap T) (n : Nat) (x : Option Nat)
    (hn : n < h.length) :
    ((replaceLeft h n x).2 = getLeft h n ∧
      getLeft (replaceLeft h n x).1 n = x ∧
      (∀ j, j < h.length →
        parentOf (replaceLeft h n x).1 j =
          if getLeft h n = some j then none
          else if x = some j then some n
          else parentOf h j) ∧
      (∀ j, getRight (replaceLeft h n x).1 j = getRight h j) ∧
      (∀ j, n ≠ j → getLeft (replaceLeft h n x).1 j = getLeft h j)) ∧
    ((replaceRight h n x).2 = getRight h n ∧
      getRight (replaceRight h n x).1 n = x ∧
      (∀ j, j < h.length →
        parentOf (replaceRight h n x).1 j =
          if getRight h n = some j then none
          else if x = some j then some n
          else parentOf h j) ∧
      (∀ j, getLeft (replaceRight h n x).1 j = getLeft h j) ∧
      (∀ j, n ≠ j → getRight (replaceRight h n x).1 j = getRight h j)) := by
  constructor
  · refine ⟨replaceLeft_ret h n x, getLeft_replaceLeft_self h n x hn, ?_,
      fun j => getRight_replaceLeft h n x j,
      fun j hj => getLeft_replaceLeft_ne h n x j hj⟩
    intro j hj
    by_cases h1 : getLeft h n = some j
    · rw [if_pos h1]
      exact parentOf_replaceLeft_oldchild h n x j h1 hj
    · rw [if_neg h1]
      by_cases h2 : x = some j
      · rw [if_pos h2, h2]
        exact parentOf_replaceLeft_new h n j h1 hj
      · rw [if_neg h2]
        exact parentOf_replaceLeft_other h n x j h1 h2
  · refine ⟨replaceRight_ret h n x, getRight_replaceRight_self h n x hn, ?_,
      fun j => getLeft_replaceRight h n x j,
      fun j hj => getRight_replaceRight_ne h n x j hj⟩
    intro j hj
    by_cases h1 : getRight h n = some j
    · rw [if_pos h1]
      exact parentOf_replaceRight_oldchild h n x j h1 hj
    · rw [if_neg h1]
      by_cases h2 : x = some j
      · rw [if_pos h2, h2]
        exact parentOf_replaceRight_new h n j h1 hj
      · rw [if_neg h2]
        exact parentOf_replaceRight_other h n x j h1 h2

theorem claim_C2_witness :
    (((replaceLeft exGood 2 none).2 = getLeft exGood 2 ∧
      getLeft (replaceLeft exGood 2 none).1 2 = none ∧
      (∀ j, j < exGood.length →
        parentOf (replaceLeft exGood 2 none).1 j =
          if getLeft exGood 2 = some j then none
          else if none = some j then some 2
          else parentOf exGood j) ∧
      (∀ j, getRight (replaceLeft exGood 2 none).1 j = getRight exGood j) ∧
      (∀ j, 2 ≠ j → getLeft (replaceLeft exGood 2 none).1 j = getLeft exGood j)) ∧
    ((replaceRight exGood 2 none).2 = getRight exGood 2 ∧
      getRight (replaceRight exGood 2 none).1 2 = none ∧
      (∀ j, j < exGood.length →
        parentOf (replaceRight exGood 2 none).1 j =
          if getRight exGood 2 = some j then none
          else if none = some j then some 2
          else parentOf exGood j) ∧
      (∀ j, getLeft (replaceRight exGood 2 none).1 j = getLeft exGood j) ∧
      (∀ j, 2 ≠ j → getRight (replaceRight exGood 2 none).1 j = getRight exGood j))) :=
  claim_C2_replace_steps Int exGood 2 none (by decide)

/-- C3, counterexample: attaching a subtree that is already attached
elsewhere does NOT sever the previous attachment — a reachable state exists
in which node 0 has two strong incoming links (it is the left child of both
node 1 and node 2), so the claimed at-most-one-strong-incoming-link
invariant fails. -/
theorem claim_C3_counterexample :
    Reachable exC3 ∧ strongIncoming exC3 0 = 2 ∧
      getLeft exC3 1 = some 0 ∧ getLeft exC3 2 = some 0 ∧
      ¬ (∀ c, c < exC3.length → strongIncoming exC3 c ≤ 1) := by
  refine ⟨?_, by decide, by decide, by decide, ?_⟩
  · exact Reachable.step_fork 2 (some 0) none
      (Reachable.step_fork 0 (some 0) none
        (Reachable.step_createLeaf 1 Reachable.nil) (by decide) (by decide))
      (by decide) (by decide)
  · intro hAll
    have h0 := hAll 0 (by decide)
    rw [show strongIncoming exC3 0 = 2 by decide] at h0
    omega

/-- C3, amended: attaching a node as a new child by `fork`/`replace*` never
severs a previous attachment — every other node's strong child slots are
unchanged by the mutation — so when the supplied subtree is already
attached elsewhere the result is a node with two strong incoming links;
the single-owner property is a caller precondition, not enforced by the
code. -/
theorem claim_C3_amended_no_severing (T : Type) :
    (∀ (h : Heap T) (self : Nat) (x : Option Nat) (m : Nat), self ≠ m →
      getLeft (replaceLeft h self x).1 m = getLeft h m ∧
      getRight (replaceLeft h self x).1 m = getRight h m) ∧
    (∀ (h : Heap T) (self : Nat) (x : Option Nat) (m : Nat), self ≠ m →
      getLeft (replaceRight h self x).1 m = getLeft h m ∧
      getRight (replaceRight h self x).1 m = getRight h m) ∧
    (∀ (h : Heap T) (v : T) (l r : Option Nat) (m : Nat), m ≠ h.length →
      getLeft (fork h v l r).1 m = getLeft h m ∧
      getRight (fork h v l r).1 m = getRight h m) := by
  refine ⟨fun h self x m hm => ⟨getLeft_replaceLeft_ne h self x m hm,
      getRight_replaceLeft h self x m⟩,
    fun h self x m hm => ⟨getLeft_replaceRight h self x m,
      getRight_replaceRight_ne h self x m hm⟩,
    fun h v l r m hm => ⟨getLeft_fork_ne h v l r m hm,
      getRight_fork_ne h v l r m hm⟩⟩

theorem claim_C3_witness :
    (getLeft (replaceLeft exGood 2 none).1 0 = getLeft exGood 0 ∧
      getRight (replaceLeft exGood 2 none).1 0 = getRight exGood 0) ∧
    (getLeft (replaceRight exGood 2 none).1 0 = getLeft exGood 0 ∧
      getRight (replaceRight exGood 2 none).1 0 = getRight exGood 0) ∧
    (getLeft (fork exGood 7 none none).1 0 = getLeft exGood 0 ∧
      getRight (fork exGood 7 none none).1 0 = getRight exGood 0) :=
  ⟨(claim_C3_amended_no_severing Int).1 exGood 2 none 0 (by decide),
    (claim_C3_amended_no_severing Int).2.1 exGood 2 none 0 (by decide),
    (claim_C3_amended_no_severing Int).2.2 exGood 7 none none 0 (by decide)⟩

/-- C4: for any starting heap and values, after
`leafA = createLeaf(v1); leafB = createLeaf(v2); root = fork(v0, leafA, leafB)`
the root's left child is leafA (holding v1), its right child is leafB
(holding v2), both children's back-references resolve to the root (holding
v0), and the root itself has no parent. -/
theorem claim_C4_fork_scenario (T : Type) (h0 : Heap T) (v1 v2 v0 : T)
    (h1 : Heap T) (a : Nat) (h2 : Heap T) (b : Nat) (h3 : Heap T) (rt : Nat)
    (e1 : createLeaf h0 v1 = (h1, a))
    (e2 : createLeaf h1 v2 = (h2, b))
    (e3 : fork h2 v0 (some a) (some b) = (h3, rt)) :
    getLeft h3 rt = some a ∧ getValue h3 a = some v1 ∧
    getRight h3 rt = some b ∧ getValue h3 b = some v2 ∧
    getParent h3 a = some rt ∧ getParent h3 b = some rt ∧
    getValue h3 rt = some v0 ∧ hasParent h3 rt = false := by
  have hh1 : h1 = (createLeaf h0 v1).1 := by rw [e1]
  have ha : a = h0.length := by
    have hsnd := congrArg Prod.snd e1
    rw [createLeaf_snd] at hsnd
    exact hsnd.symm
  have hh2 : h2 = (createLeaf h1 v2).1 := by rw [e2]
  have hb : b = h1.length := by
    have hsnd := congrArg Prod.snd e2
    rw [createLeaf_snd] at hsnd
    exact hsnd.symm
  have hh3 : h3 = (fork h2 v0 (some a) (some b)).1 := by rw [e3]
  have hrt : rt = h2.length := by
    have hsnd := congrArg Prod.snd e3
    rw [fork_snd] at hsnd
    exact hsnd.symm
  subst hh1 hh2 hh3 ha hb hrt
  have l1 : (createLeaf h0 v1).1.length = h0.length + 1 := len_createLeaf h0 v1
  have l2 : (createLeaf (createLeaf h0 v1).1 v2).1.length = h0.length + 2 := by
    rw [len_createLeaf, l1]
  refine ⟨?_, ?_, ?_, ?_, ?_, ?_, ?_, ?_⟩
  · exact getLeft_fork_self _ v0 _ _
  · rw [getValue_fork_ne _ v0 _ _ _ (by omega), getValue_createLeaf_ne _ v2 _ (by omega)]
    exact getValue_createLeaf_self h0 v1
  · exact getRight_fork_self _ v0 _ _
  · rw [getValue_fork_ne _ v0 _ _ _ (by omega)]
    exact getValue_createLeaf_self (createLeaf h0 v1).1 v2
  · rw [getParent_spec]
    constructor
    · rw [parentOf_fork_left _ v0 _ _ (by omega)
        (by intro hc; rw [Option.some_inj] at hc; omega)]
    · rw [len_fork]
      omega
  · rw [getParent_spec]
    constructor
    · rw [parentOf_fork_right _ v0 _ _ (by omega)]
    · rw [len_fork]
      omega
  · exact getValue_fork_self _ v0 _ _
  · rw [hasParent_false_iff]
    apply getParent_eq_none_of_parentOf_none
    rw [parentOf_fork_self _ v0 _ _
      (by intro hc; rw [Option.some_inj] at hc; omega)
      (by intro hc; rw [Option.some_inj] at hc; omega)]

theorem claim_C4_witness :
    getLeft exGood 2 = some 0 ∧ getValue exGood 0 = some 1 ∧
    getRight exGood 2 = some 1 ∧ getValue exGood 1 = some 2 ∧
    getParent exGood 0 = some 2 ∧ getParent exGood 1 = some 2 ∧
    getValue exGood 2 = some 0 ∧ hasParent exGood 2 = false :=
  claim_C4_fork_scenario Int ([] : Heap Int) 1 2 0
    (createLeaf ([] : Heap Int) 1).1 0
    (createLeaf (createLeaf ([] : Heap Int) 1).1 2).1 1
    exGood 2 (by rfl) (by rfl) (by rfl)

/-- C5: round-trip replace — for a live node `n` with current left child
`c` and a live detached handle `a`, after
`old = n.replaceLeft(a); n.replaceLeft(old)` the left slot again holds
`old` (which is `c`), and `a.hasParent()` is false: it was evicted by the
second call and never reattached. -/
theorem claim_C5_roundtrip (T : Type) (h : Heap T) (n a c : Nat)
    (hn : n < h.length) (ha : a < h.length)
    (hc : getLeft h n = some c)
    (_hdet : hasParent h a = false)
    (h1 : Heap T) (old : Option Nat) (e1 : replaceLeft h n (some a) = (h1, old))
    (h2 : Heap T) (ret2 : Option Nat) (e2 : replaceLeft h1 n old = (h2, ret2)) :
    old = some c ∧ getLeft h2 n = old ∧ hasParent h2 a = false := by
  have hh1 : h1 = (replaceLeft h n (some a)).1 := by rw [e1]
  have hold : old = (replaceLeft h n (some a)).2 := by rw [e1]
  have hh2 : h2 = (replaceLeft h1 n old).1 := by rw [e2]
  subst hh1 hold hh2
  have holdc : (replaceLeft h n (some a)).2 = some c := by
    rw [replaceLeft_ret, hc]
  have hlen1 : (replaceLeft h n (some a)).1.length = h.length := len_replaceLeft h n (some a)
  have hstep1 : getLeft (replaceLeft h n (some a)).1 n = some a :=
    getLeft_replaceLeft_self h n (some a) hn
  refine ⟨holdc, ?_, ?_⟩
  · exact getLeft_replaceLeft_self _ n _ (by omega)
  · rw [hasParent_false_iff]
    apply getParent_eq_none_of_parentOf_none
    exact parentOf_replaceLeft_oldchild _ n _ a hstep1 (by omega)

theorem claim_C5_witness :
    some 0 = some 0 ∧
    getLeft (replaceLeft (replaceLeft exC5 2 (some 3)).1 2 (some 0)).1 2 = some 0 ∧
    hasParent (replaceLeft (replaceLeft exC5 2 (some 3)).1 2 (some 0)).1 3 = false :=
  claim_C5_roundtrip Int exC5 2 3 0 (by decide) (by decide) (by decide) (by decide)
    (replaceLeft exC5 2 (some 3)).1 (some 0) (by decide)
    (replaceLeft (replaceLeft exC5 2 (some 3)).1 2 (some 0)).1 (some 3) (by decide)

/-- C7: passing a node's own current left child to `replaceLeft` returns
that child and leaves it installed in the left slot, but clears its
back-reference — the back-reference is set in step (1) and then cleared in
step (2), because the argument and the evicted child are the same node. -/
theorem claim_C7_self_replace (T : Type) (h : Heap T) (n c : Nat)
    (hn : n < h.length) (hc : getLeft h n = some c) (hcl : c < h.length) :
    (replaceLeft h n (some c)).2 = some c ∧
    getLeft (replaceLeft h n (some c)).1 n = some c ∧
    hasParent (replaceLeft h n (some c)).1 c = false := by
  refine ⟨?_, getLeft_replaceLeft_self h n (some c) hn, ?_⟩
  · rw [replaceLeft_ret, hc]
  · rw [hasParent_false_iff]
    apply getParent_eq_none_of_parentOf_none
    exact parentOf_replaceLeft_oldchild h n (some c) c hc hcl

theorem claim_C7_witness :
    (replaceLeft exGood 2 (some 0)).2 = some 0 ∧
    getLeft (replaceLeft exGood 2 (some 0)).1 2 = some 0 ∧
    hasParent (replaceLeft exGood 2 (some 0)).1 0 = false :=
  claim_C7_self_replace Int exGood 2 0 (by decide) (by decide) (by decide)

/-- C8: `removeLeft()` is literally `replaceLeft(nullptr)` and
`removeRight()` is `replaceRight(nullptr)` — the heaps and return values
coincide on every input — and on a live node they detach the current child
(clearing its back-reference), install nothing, and return the detached
subtree (or absent when there was no child). -/
theorem claim_C8_remove_equiv (T : Type) (h : Heap T) (n : Nat) :
    removeLeft h n = replaceLeft h n none ∧
    removeRight h n = replaceRight h n none ∧
    (n < h.length →
      (removeLeft h n).2 = getLeft h n ∧
      getLeft (removeLeft h n).1 n = none ∧
      (removeRight h n).2 = getRight h n ∧
      getRight (removeRight h n).1 n = none ∧
      (∀ c, getLeft h n = some c → c < h.length →
        hasParent (removeLeft h n).1 c = false) ∧
      (∀ c, getRight h n = some c → c < h.length →
        hasParent (removeRight h n).1 c = false)) := by
  refine ⟨rfl, rfl, fun hn => ⟨replaceLeft_ret h n none,
    getLeft_replaceLeft_self h n none hn,
    replaceRight_ret h n none,
    getRight_replaceRight_self h n none hn, ?_, ?_⟩⟩
  · intro c hc hcl
    rw [removeLeft, hasParent_false_iff]
    apply getParent_eq_none_of_parentOf_none
    exact parentOf_replaceLeft_oldchild h n none c hc hcl
  · intro c hc hcl
    rw [removeRight, hasParent_false_iff]
    apply getParent_eq_none_of_parentOf_none
    exact parentOf_replaceRight_oldchild h n none c hc hcl

theorem claim_C8_witness :
    (removeLeft exGood 2 = replaceLeft exGood 2 none ∧
      removeRight exGood 2 = replaceRight exGood 2 none ∧
      (2 < exGood.length →
        (removeLeft exGood 2).2 = getLeft exGood 2 ∧
        getLeft (removeLeft exGood 2).1 2 = none ∧
        (removeRight exGood 2).2 = getRight exGood 2 ∧
        getRight (removeRight exGood 2).1 2 = none ∧
        (∀ c, getLeft exGood 2 = some c → c < exGood.length →
          hasParent (removeLeft exGood 2).1 c = false) ∧
        (∀ c, getRight exGood 2 = some c → c < exGood.length →
          hasParent (removeRight exGood 2).1 c = false))) :=
  claim_C8_remove_equiv Int exGood 2

/-- C9: `createLeaf(v)` yields a fresh node (the next unused id) holding
`v`, with no left child, no right child and no parent; the detour through
the private `TSuccessorNode` subclass is unobservable — the handle behaves
exactly like any other node of the public interface. -/
theorem claim_C9_createLeaf (T : Type) (h : Heap T) (v : T) :
    (createLeaf h v).2 = h.length ∧
    (createLeaf h v).1.length = h.length + 1 ∧
    getValue (createLeaf h v).1 (createLeaf h v).2 = some v ∧
    hasLeft (createLeaf h v).1 (createLeaf h v).2 = false ∧
    hasRight (createLeaf h v).1 (createLeaf h v).2 = false ∧
    hasParent (createLeaf h v).1 (createLeaf h v).2 = false := by
  refine ⟨rfl, len_createLeaf h v, ?_, ?_, ?_, ?_⟩
  · rw [createLeaf_snd]
    exact getValue_createLeaf_self h v
  · rw [hasLeft, createLeaf_snd, getLeft_createLeaf_self]
    rfl
  · rw [hasRight, createLeaf_snd, getRight_createLeaf_self]
    rfl
  · rw [createLeaf_snd, hasParent_false_iff]
    exact getParent_eq_none_of_parentOf_none _ _ (parentOf_createLeaf_self h v)

/-- C6: as written in src/tree.h line 23, `hasParent` returns
`bool(parent)` where `parent` is a `std::weak_ptr`, which has no boolean
conversion — the member is ill-formed C++ and any call to it fails to
compile; the claim describes the evident intent (`bool(parent.lock())`).
For the intended semantics modelled here: `hasParent` is true exactly when
`getParent` yields a handle, and `getParent` yields the absent value both
when the node is detached (empty back-reference) and when the stored
back-reference names a node that is no longer live — the two situations
are observably identical. -/
theorem claim_C6_hasParent_intent (T : Type) (h : Heap T) (i : Nat) :
    (hasParent h i = true ↔ ∃ p, getParent h i = some p) ∧
    (parentOf h i = none → getParent h i = none) ∧
    (∀ p, parentOf h i = some p → h[p]? = none → getParent h i = none) := by
  refine ⟨hasParent_true_iff h i, getParent_eq_none_of_parentOf_none h i, ?_⟩
  intro p hp hdead
  match hg : getParent h i with
  | none => rfl
  | some q =>
    have hspec := (getParent_spec h i q).mp hg
    have hpq : p = q := by
      rw [hp] at hspec
      exact Option.some_inj.mp hspec.1
    subst hpq
    have hlive : (h[p]?).isSome = true := (isSome_at h p).mpr hspec.2
    rw [hdead] at hlive
    exact absurd hlive (by simp)

theorem claim_C6_witness :
    (hasParent exDangling 0 = true ↔ ∃ p, getParent exDangling 0 = some p) ∧
    (parentOf exDangling 0 = none → getParent exDangling 0 = none) ∧
    (∀ p, parentOf exDangling 0 = some p → exDangling[p]? = none →
      getParent exDangling 0 = none) :=
  claim_C6_hasParent_intent Int exDangling 0

/-! ### Reference-counted deallocation model (namespace `RC`)

`TNode<T>` objects live behind `std::shared_ptr`; the strong references to a
node are its parent's `left`/`right` members (src/tree.h lines 114-115) and
whatever `TNodePtr` handles external callers hold, while the `parent` member
is a `std::weak_ptr` (line 123) and holds no strong reference. A node is
destroyed exactly when its strong count reaches zero, which releases its own
`left`/`right` references and may cascade. We model the heap as a list of
slots (`none` = deallocated), the callers' handles as a multiset `roots`,
and the destruction cascade as `collect`. -/

namespace RC

/-- A program state: the allocated slots plus the external strong handles. -/
structure State (T : Type) where
  heap : List (Option (Node T))
  roots : List Nat
deriving DecidableEq

variable {T : Type}

/-- The node in slot `i`, if the slot exists and is not deallocated. -/
def nodeAt (s : State T) (i : Nat) : Option (Node T) :=
  match s.heap[i]? with
  | some o => o
  | none => none

/-- Whether the object in slot `i` is currently allocated. -/
def aliveAt (s : State T) (i : Nat) : Bool := (nodeAt s i).isSome

/-- Strong references to `i` contributed by one node's child slots. -/
def slotRefs (nd : Node T) (i : Nat) : Nat :=
  (if nd.left = some i then 1 else 0) + (if nd.right = some i then 1 else 0)

def slotEntry (i : Nat) (o : Option (Node T)) : Nat :=
  match o with
  | none => 0
  | some nd => slotRefs nd i

/-- Strong references to `i` from all live parents' `left`/`right` members. -/
def slotCount (s : State T) (i : Nat) : Nat := (s.heap.map (slotEntry i)).sum

/-- The `shared_ptr` use count of slot `i`: external handles plus incoming
child links. The `parent` member is a `std::weak_ptr` and is deliberately
not counted. -/
def strongCount (s : State T) (i : Nat) : Nat := s.roots.count i + slotCount s i

/-- Destroy the object in slot `i`. -/
def kill (s : State T) (i : Nat) : State T := { s with heap := s.heap.set i none }

def pushOpt (x : Option Nat) (l : List Nat) : List Nat :=
  match x with
  | none => l
  | some a => a :: l

/-- The destructor cascade: each pending id that is still allocated and has
use count zero is destroyed, which releases its `left`/`right` strong
references, so its children become pending in turn. -/
def collect : Nat → State T → List Nat → State T
  | 0, s, _ => s
  | _ + 1, s, [] => s
  | fuel + 1, s, i :: rest =>
    match nodeAt s i with
    | none => collect fuel s rest
    | some nd =>
      if strongCount s i = 0 then
        collect fuel (kill s i) (pushOpt nd.left (pushOpt nd.right rest))
      else
        collect fuel s rest

/-- Number of currently allocated slots. -/
def liveCount (s : State T) : Nat := s.heap.countP (fun o => o.isSome)

/-- The caller destroys one external strong handle to `i`; the released
reference may start a destruction cascade. -/
def dropRoot (s : State T) (i : Nat) : State T :=
  collect (1 + 2 * s.heap.length) { s with roots := s.roots.erase i } [i]

/-- Every allocated object has `shared_ptr` use count at least one — the
defining well-formedness of reference counting: no object survives the loss
of its last strong reference. -/
def ZeroFree (s : State T) : Prop :=
  ∀ j, j < s.heap.length → aliveAt s j = true → 1 ≤ strongCount s j

instance (s : State T) : Decidable (ZeroFree s) :=
  inferInstanceAs
    (Decidable (∀ j, j < s.heap.length → aliveAt s j = true → 1 ≤ strongCount s j))

/-- Overwrite the weak `parent` member of slot `j` (the only write
`setParent` performs). -/
def setParentRC (s : State T) (j : Nat) (p : Option Nat) : State T :=
  match s.heap[j]? with
  | some (some nd) => { s with heap := s.heap.set j (some { nd with parent := p }) }
  | _ => s

/-! #### Counting helper lemmas -/

theorem countP_set {α : Type} (l : List α) (i : Nat) (x : α) (p : α → Bool)
    (hi : i < l.length) :
    (l.set i x).countP p + (if p l[i] then 1 else 0) =
      l.countP p + (if p x then 1 else 0) := by
  induction l generalizing i with
  | nil => simp at hi
  | cons a tl ih =>
    match i with
    | 0 => simp only [List.set_cons_zero, List.countP_cons, List.getElem_cons_zero]; omega
    | i + 1 =>
      have hi2 : i < tl.length := by simpa using hi
      have := ih i hi2
      simp only [List.set_cons_succ, List.countP_cons, List.getElem_cons_succ]
      omega

theorem sum_set_nat (l : List Nat) (i : Nat) (x : Nat) (hi : i < l.length) :
    (l.set i x).sum + l[i] = l.sum + x := by
  induction l generalizing i with
  | nil => simp at hi
  | cons a tl ih =>
    match i with
    | 0 => simp only [List.set_cons_zero, List.sum_cons, List.getElem_cons_zero]; omega
    | i + 1 =>
      have hi2 : i < tl.length := by simpa using hi
      have := ih i hi2
      simp only [List.set_cons_succ, List.sum_cons, List.getElem_cons_succ]
      omega

theorem lt_of_aliveAt {s : State T} {j : Nat} (h : aliveAt s j = true) :
    j < s.heap.length := by
  by_contra hge
  have hnone : s.heap[j]? = none := List.getElem?_eq_none (by omega)
  unfold aliveAt nodeAt at h
  rw [hnone] at h
  simp at h

theorem nodeAt_eq_getElem {s : State T} {i : Nat} (hi : i < s.heap.length) :
    nodeAt s i = s.heap[i] := by
  unfold nodeAt
  rw [List.getElem?_eq_getElem hi]

theorem alive_le_liveCount {s : State T} {j : Nat} (h : aliveAt s j = true) :
    1 ≤ liveCount s := by
  have hj : j < s.heap.length := lt_of_aliveAt h
  have hget : nodeAt s j = s.heap[j] := nodeAt_eq_getElem hj
  unfold aliveAt at h
  rw [hget] at h
  have hmem : s.heap[j] ∈ s.heap := List.getElem_mem hj
  unfold liveCount
  exact List.countP_pos_iff.mpr ⟨s.heap[j], hmem, h⟩

theorem liveCount_le_length (s : State T) : liveCount s ≤ s.heap.length := by
  unfold liveCount
  exact List.countP_le_length _

/-! #### `kill` lemmas -/

theorem roots_kill (s : State T) (i : Nat) : (kill s i).roots = s.roots := rfl

theorem aliveAt_kill_self (s : State T) (i : Nat) : aliveAt (kill s i) i = false := by
  unfold aliveAt nodeAt kill
  by_cases hi : i < s.heap.length
  · rw [List.getElem?_set_self hi]
    rfl
  · have hno : (s.heap.set i none)[i]? = none := List.getElem?_eq_none (by simp; omega)
    rw [hno]
    rfl

theorem aliveAt_kill_ne (s : State T) (i j : Nat) (hij : i ≠ j) :
    aliveAt (kill s i) j = aliveAt s j := by
  unfold aliveAt nodeAt kill
  rw [List.getElem?_set_ne hij]

theorem nodeAt_kill_ne (s : State T) (i j : Nat) (hij : i ≠ j) :
    nodeAt (kill s i) j = nodeAt s j := by
  unfold nodeAt kill
  rw [List.getElem?_set_ne hij]

theorem liveCount_kill (s : State T) (i : Nat) (ha : aliveAt s i = true) :
    liveCount (kill s i) + 1 = liveCount s := by
  have hi : i < s.heap.length := lt_of_aliveAt ha
  have hsome : (s.heap[i]).isSome = true := by
    unfold aliveAt at ha
    rw [nodeAt_eq_getElem hi] at ha
    exact ha
  have hcp := countP_set s.heap i none (fun o => o.isSome) hi
  rw [if_pos hsome] at hcp
  rw [if_neg (by simp)] at hcp
  unfold liveCount kill
  show List.countP (fun o => o.isSome) (s.heap.set i none) + 1 =
    List.countP (fun o => o.isSome) s.heap
  omega

theorem slotCount_kill (s : State T) (i : Nat) (nd : Node T)
    (hN : nodeAt s i = some nd) (j : Nat) :
    slotCount (kill s i) j + slotRefs nd j = slotCount s j := by
  have ha : aliveAt s i = true := by unfold aliveAt; rw [hN]; rfl
  have hi : i < s.heap.length := lt_of_aliveAt ha
  have hhi : s.heap[i] = some nd := by
    rw [← nodeAt_eq_getElem hi]
    exact hN
  have hilen : i < (s.heap.map (slotEntry j)).length := by simpa using hi
  have hsum := sum_set_nat (s.heap.map (slotEntry j)) i
    (slotEntry j (none : Option (Node T))) hilen
  have hgi : (s.heap.map (slotEntry j))[i] = slotEntry j (some nd) := by
    rw [List.getElem_map, hhi]
  rw [hgi] at hsum
  have h0 : slotEntry j (none : Option (Node T)) = 0 := rfl
  have h1 : slotEntry j (some nd) = slotRefs nd j := rfl
  rw [h0] at hsum
  rw [h1] at hsum
  unfold slotCount kill
  show (List.map (slotEntry j) (s.heap.set i none)).sum + slotRefs nd j =
    (List.map (slotEntry j) s.heap).sum
  rw [List.map_set, h0]
  omega

theorem strongCount_kill (s : State T) (i : Nat) (nd : Node T)
    (hN : nodeAt s i = some nd) (j : Nat) :
    strongCount (kill s i) j + slotRefs nd j = strongCount s j := by
  unfold strongCount
  rw [roots_kill]
  have := slotCount_kill s i nd hN j
  omega

/-! #### `pushOpt` and `slotRefs` lemmas -/

theorem mem_pushOpt_of_mem {x : Option Nat} {l : List Nat} {j : Nat} (h : j ∈ l) :
    j ∈ pushOpt x l := by
  cases x with
  | none => exact h
  | some a => exact List.mem_cons_of_mem a h

theorem mem_pushOpt_self {l : List Nat} {j : Nat} : j ∈ pushOpt (some j) l :=
  List.mem_cons_self j l

theorem length_pushOpt (x : Option Nat) (l : List Nat) :
    (pushOpt x l).length ≤ l.length + 1 := by
  cases x with
  | none => simp [pushOpt]
  | some a => simp [pushOpt]

theorem slotRefs_cases (nd : Node T) (j : Nat) (h : slotRefs nd j ≠ 0) :
    nd.left = some j ∨ nd.right = some j := by
  unfold slotRefs at h
  by_cases h1 : nd.left = some j
  · exact Or.inl h1
  · by_cases h2 : nd.right = some j
    · exact Or.inr h2
    · rw [if_neg h1, if_neg h2] at h
      omega

/-! #### Step equations for `collect` -/

theorem collect_zero (s : State T) (pending : List Nat) : collect 0 s pending = s := rfl

theorem collect_nil (fuel : Nat) (s : State T) : collect (fuel + 1) s [] = s := rfl

theorem collect_succ_none (fuel : Nat) (s : State T) (i : Nat) (rest : List Nat)
    (hN : nodeAt s i = none) :
    collect (fuel + 1) s (i :: rest) = collect fuel s rest := by
  simp only [collect]
  rw [hN]

theorem collect_succ_some (fuel : Nat) (s : State T) (i : Nat) (rest : List Nat)
    (nd : Node T) (hN : nodeAt s i = some nd) :
    collect (fuel + 1) s (i :: rest) =
      if strongCount s i = 0 then
        collect fuel (kill s i) (pushOpt nd.left (pushOpt nd.right rest))
      else collect fuel s rest := by
  simp only [collect]
  rw [hN]

theorem collect_succ_kill (fuel : Nat) (s : State T) (i : Nat) (rest : List Nat)
    (nd : Node T) (hN : nodeAt s i = some nd) (hc : strongCount s i = 0) :
    collect (fuel + 1) s (i :: rest) =
      collect fuel (kill s i) (pushOpt nd.left (pushOpt nd.right rest)) := by
  rw [collect_succ_some fuel s i rest nd hN, if_pos hc]

theorem collect_succ_skip (fuel : Nat) (s : State T) (i : Nat) (rest : List Nat)
    (nd : Node T) (hN : nodeAt s i = some nd) (hc : ¬ strongCount s i = 0) :
    collect (fuel + 1) s (i :: rest) = collect fuel s rest := by
  rw [collect_succ_some fuel s i rest nd hN, if_neg hc]

/-! #### The cascade collects every zero-count object -/

/-- Central invariant argument: if every allocated object with use count
zero is pending, and the fuel covers the work, then after the cascade no
allocated object has use count zero. -/
theorem collect_zeroFree :
    ∀ (fuel : Nat) (s : State T) (pending : List Nat),
      (∀ j, aliveAt s j = true → strongCount s j = 0 → j ∈ pending) →
      pending.length + 2 * liveCount s ≤ fuel →
      ZeroFree (collect fuel s pending) := by
  intro fuel
  induction fuel with
  | zero =>
    intro s pending hpend hfuel j hj halive
    exfalso
    have h1 : 1 ≤ liveCount s := alive_le_liveCount halive
    omega
  | succ fuel ih =>
    intro s pending hpend hfuel
    match pending with
    | [] =>
      rw [collect_nil]
      intro j hj halive
      by_contra hge
      have hz : strongCount s j = 0 := by omega
      exact absurd (hpend j halive hz) (List.not_mem_nil j)
    | i :: rest =>
      match hN : nodeAt s i with
      | none =>
        rw [collect_succ_none fuel s i rest hN]
        have hAi : aliveAt s i = false := by
          unfold aliveAt
          rw [hN]
          rfl
        apply ih s rest
        · intro j halive hz
          rcases List.mem_cons.mp (hpend j halive hz) with he | hr
          · subst he
            rw [hAi] at halive
            exact absurd halive (by simp)
          · exact hr
        · have := List.length_cons i rest
          omega
      | some nd =>
        have hAi : aliveAt s i = true := by
          unfold aliveAt
          rw [hN]
          rfl
        by_cases hc : strongCount s i = 0
        · rw [collect_succ_kill fuel s i rest nd hN hc]
          apply ih (kill s i) (pushOpt nd.left (pushOpt nd.right rest))
          · intro j halive2 hz2
            have hij : i ≠ j := by
              intro he
              subst he
              rw [aliveAt_kill_self] at halive2
              exact absurd halive2 (by simp)
            have halive : aliveAt s j = true := by
              rw [← aliveAt_kill_ne s i j hij]
              exact halive2
            have hks := strongCount_kill s i nd hN j
            by_cases hs0 : slotRefs nd j = 0
            · have hz : strongCount s j = 0 := by omega
              rcases List.mem_cons.mp (hpend j halive hz) with he | hr
              · exact absurd he.symm hij
              · exact mem_pushOpt_of_mem (mem_pushOpt_of_mem hr)
            · rcases slotRefs_cases nd j hs0 with hL | hR
              · rw [hL]
                exact mem_pushOpt_self
              · apply mem_pushOpt_of_mem
                rw [hR]
                exact mem_pushOpt_self
          · have hlk := liveCount_kill s i hAi
            have hp1 := length_pushOpt nd.right rest
            have hp2 := length_pushOpt nd.left (pushOpt nd.right rest)
            have := List.length_cons i rest
            omega
        · rw [collect_succ_skip fuel s i rest nd hN hc]
          apply ih s rest
          · intro j halive hz
            rcases List.mem_cons.mp (hpend j halive hz) with he | hr
            · subst he
              exact absurd hz hc
            · exact hr
          · have := List.length_cons i rest
            omega

theorem strongCount_withRoots (s : State T) (r : List Nat) (j : Nat) :
    strongCount { s with roots := r } j = r.count j + slotCount s j := rfl

theorem aliveAt_withRoots (s : State T) (r : List Nat) (j : Nat) :
    aliveAt { s with roots := r } j = aliveAt s j := rfl

theorem liveCount_withRoots (s : State T) (r : List Nat) :
    liveCount { s with roots := r } = liveCount s := rfl

/-- Dropping an external strong handle preserves well-formedness: after the
cascade triggered at the drop point, no allocated object is left with use
count zero — every object whose last strong reference disappeared,
transitively through the cascade, has been deallocated then and there. -/
theorem dropRoot_zeroFree (s : State T) (i : Nat) (hzf : ZeroFree s) :
    ZeroFree (dropRoot s i) := by
  unfold dropRoot
  apply collect_zeroFree
  · intro j halive hz
    rw [aliveAt_withRoots] at halive
    have hj : j < s.heap.length := lt_of_aliveAt halive
    rw [strongCount_withRoots] at hz
    by_cases hij : j = i
    · rw [hij]
      exact List.mem_cons_self i []
    · exfalso
      have hcnt : (s.roots.erase i).count j = s.roots.count j :=
        List.count_erase_of_ne hij s.roots
      have hzs : strongCount s j = 0 := by
        unfold strongCount
        omega
      have := hzf j hj halive
      omega
  · have h1 := liveCount_le_length s
    rw [liveCount_withRoots]
    simp only [List.length_cons, List.length_nil]
    omega

/-! #### The weak back-reference is irrelevant to deallocation -/

theorem isSome_heapAt (s : State T) (j : Nat) :
    (s.heap[j]?).isSome = true ↔ j < s.heap.length := by
  rw [Option.isSome_iff_ne_none]
  simp only [ne_eq, List.getElem?_eq_none_iff]
  omega

theorem setParentRC_eq_of_none (s : State T) (j : Nat) (p : Option Nat)
    (hA : s.heap[j]? = none) : setParentRC s j p = s := by
  unfold setParentRC
  rw [hA]

theorem setParentRC_eq_of_dead (s : State T) (j : Nat) (p : Option Nat)
    (hA : s.heap[j]? = some none) : setParentRC s j p = s := by
  unfold setParentRC
  rw [hA]

theorem setParentRC_eq_of_live (s : State T) (j : Nat) (p : Option Nat) (nd : Node T)
    (hA : s.heap[j]? = some (some nd)) :
    setParentRC s j p = { s with heap := s.heap.set j (some { nd with parent := p }) } := by
  unfold setParentRC
  rw [hA]

theorem roots_setParentRC (s : State T) (j : Nat) (p : Option Nat) :
    (setParentRC s j p).roots = s.roots := by
  match hA : s.heap[j]? with
  | none => rw [setParentRC_eq_of_none s j p hA]
  | some none => rw [setParentRC_eq_of_dead s j p hA]
  | some (some nd) => rw [setParentRC_eq_of_live s j p nd hA]

theorem heap_length_setParentRC (s : State T) (j : Nat) (p : Option Nat) :
    (setParentRC s j p).heap.length = s.heap.length := by
  match hA : s.heap[j]? with
  | none => rw [setParentRC_eq_of_none s j p hA]
  | some none => rw [setParentRC_eq_of_dead s j p hA]
  | some (some nd) =>
    rw [setParentRC_eq_of_live s j p nd hA]
    simp

theorem nodeAt_setParentRC_ne (s : State T) (j : Nat) (p : Option Nat) (k : Nat)
    (hjk : j ≠ k) : nodeAt (setParentRC s j p) k = nodeAt s k := by
  match hA : s.heap[j]? with
  | none => rw [setParentRC_eq_of_none s j p hA]
  | some none => rw [setParentRC_eq_of_dead s j p hA]
  | some (some nd) =>
    rw [setParentRC_eq_of_live s j p nd hA]
    unfold nodeAt
    rw [show ({ s with heap := s.heap.set j (some { nd with parent := p }) } :
      State T).heap = s.heap.set j (some { nd with parent := p }) from rfl]
    rw [List.getElem?_set_ne hjk]

theorem nodeAt_setParentRC_self (s : State T) (j : Nat) (p : Option Nat) :
    nodeAt (setParentRC s j p) j =
      (nodeAt s j).map (fun nd => { nd with parent := p }) := by
  match hA : s.heap[j]? with
  | none =>
    rw [setParentRC_eq_of_none s j p hA]
    unfold nodeAt
    rw [hA]
    rfl
  | some none =>
    rw [setParentRC_eq_of_dead s j p hA]
    unfold nodeAt
    rw [hA]
    rfl
  | some (some nd) =>
    have hj : j < s.heap.length := (isSome_heapAt s j).mp (by rw [hA]; rfl)
    rw [setParentRC_eq_of_live s j p nd hA]
    unfold nodeAt
    rw [show ({ s with heap := s.heap.set j (some { nd with parent := p }) } :
      State T).heap = s.heap.set j (some { nd with parent := p }) from rfl]
    rw [List.getElem?_set_self hj, hA]
    rfl

theorem aliveAt_setParentRC (s : State T) (j : Nat) (p : Option Nat) (k : Nat) :
    aliveAt (setParentRC s j p) k = aliveAt s k := by
  by_cases hjk : j = k
  · subst hjk
    unfold aliveAt
    rw [nodeAt_setParentRC_self]
    cases nodeAt s j <;> rfl
  · unfold aliveAt
    rw [nodeAt_setParentRC_ne s j p k hjk]

theorem slotCount_setParentRC (s : State T) (j : Nat) (p : Option Nat) (i : Nat) :
    slotCount (setParentRC s j p) i = slotCount s i := by
  match hA : s.heap[j]? with
  | none => rw [setParentRC_eq_of_none s j p hA]
  | some none => rw [setParentRC_eq_of_dead s j p hA]
  | some (some nd) =>
    rw [setParentRC_eq_of_live s j p nd hA]
    have hj : j < s.heap.length := (isSome_heapAt s j).mp (by rw [hA]; rfl)
    have hjl : j < (s.heap.map (slotEntry i)).length := by simpa using hj
    have hsum := sum_set_nat (s.heap.map (slotEntry i)) j
      (slotEntry i (some { nd with parent := p })) hjl
    have hhj : s.heap[j] = some nd := by
      have := List.getElem?_eq_getElem hj
      rw [hA] at this
      exact (Option.some_inj.mp this.symm)
    have hgi : (s.heap.map (slotEntry i))[j] = slotEntry i (some nd) := by
      rw [List.getElem_map, hhj]
    rw [hgi] at hsum
    have hsame : slotEntry i (some { nd with parent := p }) = slotEntry i (some nd) := rfl
    rw [hsame] at hsum
    unfold slotCount
    show (List.map (slotEntry i) (s.heap.set j (some { nd with parent := p }))).sum =
      (List.map (slotEntry i) s.heap).sum
    rw [List.map_set, hsame]
    omega

theorem strongCount_setParentRC (s : State T) (j : Nat) (p : Option Nat) (i : Nat) :
    strongCount (setParentRC s j p) i = strongCount s i := by
  unfold strongCount
  rw [roots_setParentRC, slotCount_setParentRC]

theorem kill_setParentRC_comm (s : State T) (j : Nat) (p : Option Nat) (i : Nat) :
    kill (setParentRC s j p) i = setParentRC (kill s i) j p := by
  obtain ⟨hp, rt⟩ := s
  by_cases hij : i = j
  · subst hij
    match hA : hp[i]? with
    | none =>
      have hlen : ¬ i < hp.length := by
        intro hc
        rw [List.getElem?_eq_getElem hc] at hA
        exact absurd hA (by simp)
      have hA2 : (hp.set i none)[i]? = none :=
        List.getElem?_eq_none (by simp; omega)
      simp only [setParentRC, kill, hA, hA2]
    | some none =>
      have hi : i < hp.length := (isSome_heapAt ⟨hp, rt⟩ i).mp (by rw [hA]; rfl)
      have hA2 : (hp.set i none)[i]? = some none := List.getElem?_set_self hi
      simp only [setParentRC, kill, hA, hA2]
    | some (some nd) =>
      have hi : i < hp.length := (isSome_heapAt ⟨hp, rt⟩ i).mp (by rw [hA]; rfl)
      have hA2 : (hp.set i none)[i]? = some none := List.getElem?_set_self hi
      simp only [setParentRC, kill, hA, hA2]
      rw [List.set_set]
  · match hA : hp[j]? with
    | none =>
      have hA2 : (hp.set i none)[j]? = none := by
        rw [List.getElem?_set_ne hij]
        exact hA
      simp only [setParentRC, kill, hA, hA2]
    | some none =>
      have hA2 : (hp.set i none)[j]? = some none := by
        rw [List.getElem?_set_ne hij]
        exact hA
      simp only [setParentRC, kill, hA, hA2]
    | some (some nd) =>
      have hA2 : (hp.set i none)[j]? = some (some nd) := by
        rw [List.getElem?_set_ne hij]
        exact hA
      simp only [setParentRC, kill, hA, hA2]
      rw [List.set_comm _ _ _ (fun he => hij he)]

theorem collect_setParentRC :
    ∀ (fuel : Nat) (s : State T) (pending : List Nat) (j : Nat) (p : Option Nat),
      collect fuel (setParentRC s j p) pending = setParentRC (collect fuel s pending) j p := by
  intro fuel
  induction fuel with
  | zero => intro s pending j p; rfl
  | succ fuel ih =>
    intro s pending j p
    match pending with
    | [] => rw [collect_nil, collect_nil]
    | i :: rest =>
      match hN : nodeAt s i with
      | none =>
        have hN2 : nodeAt (setParentRC s j p) i = none := by
          by_cases hji : j = i
          · subst hji
            rw [nodeAt_setParentRC_self, hN]
            rfl
          · rw [nodeAt_setParentRC_ne s j p i hji, hN]
        rw [collect_succ_none fuel _ i rest hN2, collect_succ_none fuel s i rest hN, ih]
      | some nd =>
        by_cases hc : strongCount s i = 0
        · have hc2 : strongCount (setParentRC s j p) i = 0 := by
            rw [strongCount_setParentRC]
            exact hc
          by_cases hji : j = i
          · subst hji
            have hN2 : nodeAt (setParentRC s j p) j = some { nd with parent := p } := by
              rw [nodeAt_setParentRC_self, hN]
              rfl
            rw [collect_succ_kill fuel _ j rest _ hN2 hc2,
              collect_succ_kill fuel s j rest nd hN hc]
            have hl : ({ nd with parent := p } : Node T).left = nd.left := rfl
            have hr : ({ nd with parent := p } : Node T).right = nd.right := rfl
            rw [hl, hr, kill_setParentRC_comm, ih]
          · have hN2 : nodeAt (setParentRC s j p) i = some nd := by
              rw [nodeAt_setParentRC_ne s j p i hji, hN]
            rw [collect_succ_kill fuel _ i rest nd hN2 hc2,
              collect_succ_kill fuel s i rest nd hN hc,
              kill_setParentRC_comm, ih]
        · have hc2 : ¬ strongCount (setParentRC s j p) i = 0 := by
            rw [strongCount_setParentRC]
            exact hc
          by_cases hji : j = i
          · subst hji
            have hN2 : nodeAt (setParentRC s j p) j = some { nd with parent := p } := by
              rw [nodeAt_setParentRC_self, hN]
              rfl
            rw [collect_succ_skip fuel _ j rest _ hN2 hc2,
              collect_succ_skip fuel s j rest nd hN hc, ih]
          · have hN2 : nodeAt (setParentRC s j p) i = some nd := by
              rw [nodeAt_setParentRC_ne s j p i hji, hN]
            rw [collect_succ_skip fuel _ i rest nd hN2 hc2,
              collect_succ_skip fuel s i rest nd hN hc, ih]

theorem setParentRC_withRoots (s : State T) (j : Nat) (p : Option Nat) (r : List Nat) :
    setParentRC { s with roots := r } j p = { setParentRC s j p with roots := r } := by
  obtain ⟨hp, rt⟩ := s
  match hA : hp[j]? with
  | none => simp only [setParentRC, hA]
  | some none => simp only [setParentRC, hA]
  | some (some nd) => simp only [setParentRC, hA]

/-- Writing a node's weak back-reference commutes with any handle drop:
the `parent` member plays no role in reference counting or in the
destruction cascade. -/
theorem dropRoot_setParentRC (s : State T) (j : Nat) (p : Option Nat) (i : Nat) :
    dropRoot (setParentRC s j p) i = setParentRC (dropRoot s i) j p := by
  unfold dropRoot
  rw [heap_length_setParentRC, roots_setParentRC]
  rw [show ({ setParentRC s j p with roots := s.roots.erase i } : State T) =
    setParentRC { s with roots := s.roots.erase i } j p from
      (setParentRC_withRoots s j p (s.roots.erase i)).symm]
  rw [collect_setParentRC]

/-- The scenario state: `root = fork(0, leafA, leafB)` with the caller
holding strong handles to the root (id 2) and to leafA (id 0); both
children's weak back-references name the root. -/
def sB : State Int :=
  { heap :=
      [some { value := 1, left := none, right := none, parent := some 2 },
        some { value := 2, left := none, right := none, parent := some 2 },
        some { value := 0, left := some 0, right := some 1, parent := none }],
    roots := [2, 0] }

end RC

/-- C10: in the reference-counting model of `shared_ptr`/`weak_ptr` (the
`left`/`right` members and external handles are strong references; the
`parent` member, a `std::weak_ptr` (src/tree.h line 123), is not counted):
(1) dropping an external handle preserves the invariant that every still
allocated node has strong count at least one — so a node whose last strong
reference disappears, directly or transitively through the destruction
cascade, is deallocated at that point; (2) and (3) writing a node's weak
back-reference commutes with any handle drop and never changes which nodes
are alive — the child-to-parent reference never keeps its target alive and
the parent/child cycle cannot leak; (4) concretely, dropping the root
handle of the scenario tree deallocates the root and the right leaf (whose
only strong references ran through the root) while the independently
retained left leaf survives. -/
theorem claim_C10_deallocation :
    (∀ (T : Type) (s : RC.State T) (i : Nat),
      RC.ZeroFree s → RC.ZeroFree (RC.dropRoot s i)) ∧
    (∀ (T : Type) (s : RC.State T) (j : Nat) (p : Option Nat) (i : Nat),
      RC.dropRoot (RC.setParentRC s j p) i = RC.setParentRC (RC.dropRoot s i) j p) ∧
    (∀ (T : Type) (s : RC.State T) (j : Nat) (p : Option Nat) (k : Nat),
      RC.aliveAt (RC.setParentRC s j p) k = RC.aliveAt s k) ∧
    (RC.ZeroFree RC.sB ∧
      RC.aliveAt (RC.dropRoot RC.sB 2) 0 = true ∧
      RC.aliveAt (RC.dropRoot RC.sB 2) 1 = false ∧
      RC.aliveAt (RC.dropRoot RC.sB 2) 2 = false) := by
  refine ⟨fun T s i hzf => RC.dropRoot_zeroFree s i hzf,
    fun T s j p i => RC.dropRoot_setParentRC s j p i,
    fun T s j p k => RC.aliveAt_setParentRC s j p k,
    by decide, by decide, by decide, by decide⟩

theorem claim_C10_witness :
    RC.ZeroFree RC.sB ∧ RC.ZeroFree (RC.dropRoot RC.sB 2) :=
  ⟨by decide, claim_C10_deallocation.1 Int RC.sB 2 (by decide)⟩

end bintree
